import Mathlib

/-!
Shallow embedding of the `kvs` log-structured key-value store
(`src/engines/kvs.rs`, `src/lib.rs`, `src/bin/kvs-server.rs`,
`src/bin/kvs-client.rs`).

Modelling conventions:
* Rust `String` is Lean `String`; `String::len` (a UTF-8 byte count) is
  modelled by `strBytes`.
* The on-disk log is modelled as the list of records it contains
  (`List Command`); byte offsets and byte lengths are computed from the
  real `serde_json` encoding of each record (`encodeChars` / `encLen`),
  so all offset/length arithmetic is byte-accurate.
* `HashMap<String, CommandPos>` is modelled as an association list with
  unique keys; iteration order (used by compaction) is the list order,
  a deterministic stand-in for the (stable while unmodified) iteration
  order of the Rust `HashMap`.
* File handles, locks and buffering are invisible at this level: a
  buffered write followed by the source's explicit flushes behaves like
  the logical file contents, which is what the model stores.
* u64 quantities are modelled as `Nat`; the file sizes involved stay far
  below 2^64 so wrap-around cannot occur (the one place where the source
  can actually underflow, `read_line_from_stream`, is modelled with
  explicit wrap-around arithmetic on `usize`).
-/

/-! ## Byte lengths of strings (Rust `String::len`) -/

/-- Number of bytes of the UTF-8 encoding of a list of characters. -/
def bytesLen (l : List Char) : Nat := (l.map (fun c => c.utf8Size)).sum

/-- Rust `String::len`: byte length of the UTF-8 encoding. -/
def strBytes (s : String) : Nat := bytesLen s.data

/-! ## The record type and its `serde_json` encoding

`Command` is the enum of `src/engines/kvs.rs` lines 276-280 (identical in
`src/lib.rs`).  `serde_json::to_writer` encodes it externally tagged and
compact: `{"Set":{"key":K,"value":V}}` / `{"Rm":{"key":K}}` with the
standard JSON string escapes. -/

inductive Command where
  | Set : String → String → Command
  | Rm : String → Command
deriving DecidableEq

/-- One hexadecimal digit, used in `\u00XX` escapes. -/
def hexDigit (n : Nat) : Char :=
  if n < 10 then Char.ofNat (48 + n) else Char.ofNat (87 + n)

/-- The characters `serde_json` emits for one character inside a JSON
string literal: `"` and `\` are backslash-escaped, the control characters
BS/TAB/LF/FF/CR get their short escapes, other control characters become
`\u00XX`, and everything else is emitted verbatim. -/
def escapeChar (c : Char) : List Char :=
  if c = '"' then ['\\', '"']
  else if c = '\\' then ['\\', '\\']
  else if c.toNat = 8 then ['\\', 'b']
  else if c.toNat = 9 then ['\\', 't']
  else if c.toNat = 10 then ['\\', 'n']
  else if c.toNat = 12 then ['\\', 'f']
  else if c.toNat = 13 then ['\\', 'r']
  else if c.toNat < 32 then ['\\', 'u', '0', '0', hexDigit (c.toNat / 16), hexDigit (c.toNat % 16)]
  else [c]

/-- JSON string-literal body of a string. -/
def escapeString (s : String) : List Char := (s.data.map escapeChar).flatten

/-- The exact characters `serde_json::to_writer` produces for a `Command`. -/
def encodeChars : Command → List Char
  | Command.Set k v =>
      "\x7b\"Set\":\x7b\"key\":\"".data ++ escapeString k
        ++ "\",\"value\":\"".data ++ escapeString v ++ "\"\x7d\x7d".data
  | Command.Rm k =>
      "\x7b\"Rm\":\x7b\"key\":\"".data ++ escapeString k ++ "\"\x7d\x7d".data

/-- Byte length of the encoded record; this is what the difference
`writer.seek(SeekFrom::End(0))? - cmd_head_pos` evaluates to after the
record has been written. -/
def encLen (c : Command) : Nat := bytesLen (encodeChars c)

/-- `CommandPos` from `src/engines/kvs.rs` lines 282-286: a byte range in
the active log. -/
structure CommandPos where
  pos : Nat
  len : Nat
deriving DecidableEq

/-- Total byte length of the log file holding exactly these records. -/
def logSize (log : List Command) : Nat := (log.map encLen).sum

/-- `LogReader::read_in_pos` (`src/engines/kvs.rs` lines 322-328): seek to
`pos`, read at most `len` bytes, decode one JSON value.  On a log that is
a concatenation of encoded records this succeeds exactly when `pos` is a
record boundary and `len` is that record's encoded length: a shorter read
is truncated JSON and a longer read has trailing characters, both of
which `serde_json::from_reader` rejects.  The same function also models
`read_raw_in_pos` as used by compaction, which in the verified states is
only ever invoked on exact record ranges. -/
def readSlice : List Command → Nat → Nat → Option Command
  | [], _, _ => none
  | c :: rest, pos, len =>
    if pos = 0 then (if len = encLen c then some c else none)
    else if pos < encLen c then none
    else readSlice rest (pos - encLen c) len

/-! ## Errors (`src/error.rs` lines 11-21)

The payloads of `IOError`, `DeserError` and `SledError` (the underlying
`io::Error`, `serde_json::Error`, `sled::Error`) are dropped: the engine
never inspects them.  Note that the enum has no `Corruption` variant. -/

inductive KvsError where
  | InvalidKeySize
  | InvalidValueSize
  | KeyNotFound
  | ParseEngineError
  | CmdNotSupport
  | IOError
  | DeserError
  | SledError
deriving DecidableEq

deriving instance DecidableEq for Except

/-! ## The index (`HashMap<String, CommandPos>`) as an association list -/

/-- Keys-to-positions map of the engine. -/
abbrev Index : Type := List (String × CommandPos)

/-- `HashMap::get`. -/
def idxGet : Index → String → Option CommandPos
  | [], _ => none
  | (k, p) :: rest, key => if k = key then some p else idxGet rest key

/-- `HashMap::insert`: returns the previous value, replaces in place. -/
def idxInsert : Index → String → CommandPos → Option CommandPos × Index
  | [], key, p => (none, [(key, p)])
  | (k, q) :: rest, key, p =>
    if k = key then (some q, (key, p) :: rest)
    else
      let r := idxInsert rest key p
      (r.1, (k, q) :: r.2)

/-- `HashMap::remove`: returns the previous value, drops the entry. -/
def idxRemove : Index → String → Option CommandPos × Index
  | [], _ => (none, [])
  | (k, q) :: rest, key =>
    if k = key then (some q, rest)
    else
      let r := idxRemove rest key
      (r.1, (k, q) :: r.2)

/-! ## Engine state -/

/-- The mutable state behind a `KvStore` handle (`src/engines/kvs.rs`
lines 24-31): the locks and `Arc`s around each field, and the two paths,
carry no logical state of their own. -/
structure KvState where
  index : Index
  log : List Command
  redundance_bytes : Nat
deriving DecidableEq

/-- `REDUNDANCE_THRESHOLD = 1 << 20` (`src/engines/kvs.rs` line 17). -/
def REDUNDANCE_THRESHOLD : Nat := 2 ^ 20

/-- `check_length` (`src/engines/kvs.rs` lines 338-348).  The `panic!` of
the unreachable third arm (the function is only ever called with
`s_type` equal to `"key"` or `"value"`) is modelled as an arbitrary
error. -/
def check_length (s : String) (s_type : String) (max_len_in_bytes : Nat) : Except KvsError Unit :=
  if strBytes s ≤ max_len_in_bytes then Except.ok ()
  else if s_type = "key" then Except.error KvsError.InvalidKeySize
  else if s_type = "value" then Except.error KvsError.InvalidValueSize
  else Except.error KvsError.IOError

namespace KvStore

/-- The loop body of `log_compact` (`src/engines/kvs.rs` lines 100-107):
walk the index entries in iteration order, copy each entry's raw bytes
from the old log to the growing new log, and re-point the entry at the
running write offset.  A failed read aborts with the propagated error. -/
def compactAux (oldLog : List Command) : Index → Nat → Except KvsError (Index × List Command)
  | [], _ => Except.ok ([], [])
  | (k, r) :: rest, headPos =>
    match readSlice oldLog r.pos r.len with
    | none => Except.error KvsError.IOError
    | some c =>
      match compactAux oldLog rest (headPos + r.len) with
      | Except.error e => Except.error e
      | Except.ok pr => Except.ok ((k, ⟨headPos, r.len⟩) :: pr.1, c :: pr.2)

/-- `KvStore::log_compact` (`src/engines/kvs.rs` lines 86-116).  The
flush, the `log.tmp` creation, the handle swap and the remove/rename are
file plumbing whose net logical effect is: the log now holds exactly the
copied records and the index points into it at the recomputed offsets.
`redundance_bytes` is not touched by `log_compact` itself.  On a failure
inside the copy loop the source leaves partially updated entries behind;
the model returns the pre-compaction state, and every theorem below uses
the failure branch only where it is unreachable. -/
def log_compact (s : KvState) : Except KvsError KvState :=
  match compactAux s.log s.index 0 with
  | Except.error e => Except.error e
  | Except.ok pr => Except.ok { s with index := pr.1, log := pr.2 }

/-- `KvStore::set` (`src/engines/kvs.rs` lines 152-178). -/
def set (key value : String) (s : KvState) : Except KvsError Unit × KvState :=
  match check_length key "key" 256 with
  | Except.error e => (Except.error e, s)
  | Except.ok _ =>
  match check_length value "value" (2 ^ 12) with
  | Except.error e => (Except.error e, s)
  | Except.ok _ =>
    let cmd := Command.Set key value
    let cmd_head_pos := logSize s.log
    let log1 := s.log ++ [cmd]
    let cmd_pos : CommandPos := ⟨cmd_head_pos, logSize log1 - cmd_head_pos⟩
    let ins := idxInsert s.index key cmd_pos
    let red1 := s.redundance_bytes + (match ins.1 with | some old => old.len | none => 0)
    let s1 : KvState := ⟨ins.2, log1, red1⟩
    if red1 ≥ REDUNDANCE_THRESHOLD then
      match log_compact s1 with
      | Except.ok s2 => (Except.ok (), { s2 with redundance_bytes := 0 })
      | Except.error e => (Except.error e, s1)
    else (Except.ok (), s1)

/-- `KvStore::get` (`src/engines/kvs.rs` lines 199-211).  The state is
not changed (the flush only publishes buffered bytes that the model's
log already contains).  A slice that does not decode propagates the
decoder's error; a decoded non-`Set` record hits the catch-all arm
`_ => Err(KvsError::KeyNotFound)`. -/
def get (key : String) (s : KvState) : Except KvsError (Option String) :=
  match idxGet s.index key with
  | some cmd_pos =>
    match readSlice s.log cmd_pos.pos cmd_pos.len with
    | none => Except.error KvsError.DeserError
    | some (Command.Set _ value) => Except.ok (some value)
    | some (Command.Rm _) => Except.error KvsError.KeyNotFound
  | none => Except.ok none

/-- `KvStore::remove` (`src/engines/kvs.rs` lines 232-251), with the
possible failure of the tombstone append made explicit: `append_err`
injects the outcome of `self.logwriter.lock().unwrap().write(&cmd)?` —
`none` means the write succeeds, `some e` means it fails with `e`, in
which case the `?` returns `e` after the index entry has already been
removed.  Note the source does not reset `redundance_bytes` after the
compaction it triggers here. -/
def removeF (append_err : Option KvsError) (key : String) (s : KvState) :
    Except KvsError Unit × KvState :=
  match idxRemove s.index key with
  | (some old_cmd_pos, idx1) =>
    match append_err with
    | some e => (Except.error e, { s with index := idx1 })
    | none =>
      let cmd := Command.Rm key
      let cmd_head_pos := logSize s.log
      let log1 := s.log ++ [cmd]
      let cmd_pos : CommandPos := ⟨cmd_head_pos, logSize log1 - cmd_head_pos⟩
      let red1 := s.redundance_bytes + old_cmd_pos.len + cmd_pos.len
      let s1 : KvState := ⟨idx1, log1, red1⟩
      if red1 ≥ REDUNDANCE_THRESHOLD then
        match log_compact s1 with
        | Except.ok s2 => (Except.ok (), s2)
        | Except.error e => (Except.error e, s1)
      else (Except.ok (), s1)
  | (none, _) => (Except.error KvsError.KeyNotFound, s)

/-- `KvStore::remove` with the append succeeding (the no-failure run). -/
def remove (key : String) (s : KvState) : Except KvsError Unit × KvState :=
  removeF none key s

/-- `KvStore::scan` (`src/engines/kvs.rs` lines 271-273). -/
def scan (s : KvState) : List String := s.index.map Prod.fst

/-- The replay loop of `KvStore::open` (`src/engines/kvs.rs` lines
54-74): stream-decode the log from offset 0, tracking `curr_head_pos`,
and apply each record to the index.  On a well-formed log every stream
item is `Ok`, so the `if let Ok(cmd)` filter passes every record. -/
def replayAux : List Command → Nat → Index → Index
  | [], _, idx => idx
  | c :: rest, pos, idx =>
    let cmd_pos : CommandPos := ⟨pos, encLen c⟩
    let idx1 := match c with
      | Command.Set key _ => (idxInsert idx key cmd_pos).2
      | Command.Rm key => (idxRemove idx key).2
    replayAux rest (pos + encLen c) idx1

/-- Index obtained by replaying the log from offset 0. -/
def replay (log : List Command) : Index := replayAux log 0 []

/-- `KvStore::open` (`src/engines/kvs.rs` lines 35-84).  The filesystem
is abstracted to what `open` inspects: `index_file_exists` models
`index_file.exists()`, `load_result` models
`serde_json::from_reader(index_handle)` on the snapshot, and `log` is
the current contents of the log file.  When the snapshot file exists its
load result is propagated by `?`; only when it does not exist is the
index rebuilt by replay.  `redundance_bytes` starts at 0. -/
def openStore (index_file_exists : Bool) (load_result : Except KvsError Index)
    (log : List Command) : Except KvsError KvState :=
  if index_file_exists then
    match load_result with
    | Except.error e => Except.error e
    | Except.ok idx => Except.ok ⟨idx, log, 0⟩
  else Except.ok ⟨replay log, log, 0⟩

end KvStore

namespace LibKvStore

/-- `KvStore::remove` of the older engine copy in `src/lib.rs` lines
123-135: the tombstone append is commented out there, so the log is not
touched; only the index entry is dropped and `old.len` is added to the
redundancy counter (again without a reset after compaction). -/
def remove (key : String) (s : KvState) : Except KvsError Unit × KvState :=
  match idxRemove s.index key with
  | (some cmd_pos, idx1) =>
    let red1 := s.redundance_bytes + cmd_pos.len
    let s1 : KvState := ⟨idx1, s.log, red1⟩
    if red1 ≥ REDUNDANCE_THRESHOLD then
      match KvStore.log_compact s1 with
      | Except.ok s2 => (Except.ok (), s2)
      | Except.error e => (Except.error e, s1)
    else (Except.ok (), s1)
  | (none, _) => (Except.error KvsError.KeyNotFound, s)

end LibKvStore

/-! ## Sequences of engine operations

`set`/`remove` are the state-changing operations (`get`/`scan` leave
the model state untouched); a run threads the state through, keeping
the post-state of failed operations just as the running engine does. -/

inductive Op where
  | setOp : String → String → Op
  | rmOp : String → Op
deriving DecidableEq

/-- Execute one operation and keep the resulting state. -/
def applyOp (s : KvState) : Op → KvState
  | Op.setOp k v => (KvStore.set k v s).2
  | Op.rmOp k => (KvStore.remove k s).2

/-- Execute a sequence of operations. -/
def run (s : KvState) (ops : List Op) : KvState := ops.foldl applyOp s

/-- Does the operation write the given key? -/
def opTouches (key : String) : Op → Bool
  | Op.setOp k _ => k = key
  | Op.rmOp k => k = key

/-- The state `KvStore::open` produces on a fresh directory: empty
index, empty log, `redundance_bytes = 0`. -/
def initState : KvState := ⟨[], [], 0⟩

/-! ## Server response for GET (`src/bin/kvs-server.rs` lines 142-149)

The `"GET"` arm of `get_response`: run `engine.get(key)?`, then format
`Success\r\n<v.len()>\r\n<v>\r\n` (where `v.len()` is the value's UTF-8
byte length) when a value exists, `Success\r\n-1\r\n` otherwise. -/
def get_response_GET (engine : KvState) (key : String) : Except KvsError String :=
  match KvStore.get key engine with
  | Except.error e => Except.error e
  | Except.ok (some v) =>
      Except.ok ("Success\r\n" ++ toString (strBytes v) ++ "\r\n" ++ v ++ "\r\n")
  | Except.ok none => Except.ok "Success\r\n-1\r\n"

/-! ## The CRLF-stripping line reader
(`src/bin/kvs-server.rs` lines 163-168, `src/bin/kvs-client.rs` lines
159-164)

Both binaries share the same body: `read_line` appends one line into
`line` (including its delimiters, if any arrived), then
`line.truncate(line.len() - 2)` drops the trailing `\r\n`.  The line is
modelled as its byte sequence.  `line.len() - 2` is `usize` arithmetic:
in release builds it wraps modulo 2^64 (`usizeSub`), after which
`String::truncate` with a length at least the current one is a no-op;
in debug builds the underflow itself panics. -/

/-- 2^64, the modulus of `usize` arithmetic on a 64-bit target. -/
def USIZE_MOD : Nat := 2 ^ 64

/-- Wrapping `usize` subtraction `a - b` (for `a, b < 2^64`). -/
def usizeSub (a b : Nat) : Nat := (a + USIZE_MOD - b) % USIZE_MOD

/-- `read_line_from_stream` after the `read_line` call: the CRLF strip.
`String::truncate(new_len)` shortens to `new_len` bytes when that is
less than the current length and does nothing otherwise. -/
def read_line_from_stream (line : List Nat) : List Nat :=
  let new_len := usizeSub line.length 2
  if new_len < line.length then line.take new_len else line

/-! ## Specification-side definitions used by the verification below -/

/-- The keys of an index, in order. -/
def keysOf (idx : Index) : List String := idx.map Prod.fst

/-- Keys are pairwise distinct (the `HashMap` representation invariant). -/
def NodupKeys (idx : Index) : Prop := (keysOf idx).Nodup

instance (idx : Index) : Decidable (NodupKeys idx) := by
  unfold NodupKeys; infer_instance

/-- Every entry reachable through `idxGet` points at an exact record
range of the log that decodes to a `Set` record of that very key. -/
def alignedIdx (idx : Index) (log : List Command) : Prop :=
  ∀ k p, idxGet idx k = some p →
    ∃ v, readSlice log p.pos p.len = some (Command.Set k v)

/-- Well-formedness: the in-memory index is exactly what replaying the
log from offset 0 produces (spec invariant 2); every intact state of the
running engine satisfies it. -/
def WF (s : KvState) : Prop := s.index = KvStore.replay s.log

instance (s : KvState) : Decidable (WF s) := by
  unfold WF; infer_instance

/-- The live value of a key: what the index entry's byte range decodes
to, when it is a `Set` record. -/
def valueAt (s : KvState) (k : String) : Option String :=
  match idxGet s.index k with
  | some p =>
    match readSlice s.log p.pos p.len with
    | some (Command.Set _ v) => some v
    | _ => none
  | none => none

/-- The index built for a list of (key, record) pairs laid out
consecutively starting at `pos` — the layout compaction produces. -/
def canonical : List (String × Command) → Nat → Index
  | [], _ => []
  | (k, c) :: rest, pos => (k, ⟨pos, encLen c⟩) :: canonical rest (pos + encLen c)

/-- The state `set` builds before deciding whether to compact. -/
def setMid (key value : String) (s : KvState) : KvState :=
  ⟨(idxInsert s.index key ⟨logSize s.log, encLen (Command.Set key value)⟩).2,
   s.log ++ [Command.Set key value],
   s.redundance_bytes +
     (match (idxInsert s.index key ⟨logSize s.log, encLen (Command.Set key value)⟩).1 with
      | some old => old.len
      | none => 0)⟩

/-- The state `remove` builds (tombstone appended, entry dropped) before
deciding whether to compact. -/
def removeMid (key : String) (p : CommandPos) (s : KvState) : KvState :=
  ⟨(idxRemove s.index key).2, s.log ++ [Command.Rm key],
   s.redundance_bytes + p.len + encLen (Command.Rm key)⟩

/-! ## Concrete states used by closed-instance theorems -/

/-- A state whose redundancy counter sits one byte below the 1 MiB
threshold, with two live keys; the next `remove` pushes it over the
threshold and triggers compaction. -/
def nearThresholdState : KvState :=
  ⟨[("a", ⟨0, encLen (Command.Set "a" "x")⟩),
    ("b", ⟨encLen (Command.Set "a" "x"), encLen (Command.Set "b" "y")⟩)],
   [Command.Set "a" "x", Command.Set "b" "y"],
   2 ^ 20 - 1⟩

/-- A state whose index entry for `"k"` points at a `Rm` record. -/
def rmRecordState : KvState :=
  ⟨[("k", ⟨0, encLen (Command.Rm "k")⟩)], [Command.Rm "k"], 0⟩

/-- A well-formed one-key state. -/
def oneKeyState : KvState :=
  ⟨[("a", ⟨0, encLen (Command.Set "a" "x")⟩)], [Command.Set "a" "x"], 0⟩

/-- A two-key state whose index iterates in the reverse of the log's
record order, so its first compaction reorders the log. -/
def twoKeyScrambled : KvState :=
  ⟨[("b", ⟨encLen (Command.Set "a" "x"), encLen (Command.Set "b" "y")⟩),
    ("a", ⟨0, encLen (Command.Set "a" "x")⟩)],
   [Command.Set "a" "x", Command.Set "b" "y"],
   7⟩

/-- What one compaction of `twoKeyScrambled` produces. -/
def twoKeyCompacted : KvState :=
  ⟨[("b", ⟨0, encLen (Command.Set "b" "y")⟩),
    ("a", ⟨encLen (Command.Set "b" "y"), encLen (Command.Set "a" "x")⟩)],
   [Command.Set "b" "y", Command.Set "a" "x"],
   7⟩

/-- A 257-byte key (one over the limit). -/
def longKey : String := String.mk (List.replicate 257 'a')

/-- A 4097-byte value (one over the limit). -/
def longValue : String := String.mk (List.replicate 4097 'b')

/-! # Verification

## Basic byte-length and log-size lemmas -/

theorem bytesLen_append (a b : List Char) : bytesLen (a ++ b) = bytesLen a + bytesLen b := by
  simp [bytesLen]

theorem bytesLen_pos {l : List Char} (h : l ≠ []) : 0 < bytesLen l := by
  cases l with
  | nil => exact absurd rfl h
  | cons c t =>
      have := Char.utf8Size_pos c
      simp [bytesLen]
      omega

theorem encLen_pos (c : Command) : 0 < encLen c := by
  cases c with
  | Set k v =>
      refine bytesLen_pos ?_
      simp [encodeChars]
  | Rm k =>
      refine bytesLen_pos ?_
      simp [encodeChars]

theorem logSize_nil : logSize [] = 0 := rfl

theorem logSize_cons (c : Command) (l : List Command) :
    logSize (c :: l) = encLen c + logSize l := by
  simp [logSize]

theorem logSize_append (a b : List Command) : logSize (a ++ b) = logSize a + logSize b := by
  simp [logSize]

theorem logSize_singleton (c : Command) : logSize [c] = encLen c := by
  simp [logSize]

/-! ## readSlice lemmas -/

theorem readSlice_len {log : List Command} {pos len : Nat} {c : Command}
    (h : readSlice log pos len = some c) : len = encLen c := by
  induction log generalizing pos with
  | nil => simp [readSlice] at h
  | cons d rest ih =>
      by_cases hp : pos = 0
      · subst hp
        by_cases hl : len = encLen d
        · simp [readSlice, hl] at h
          subst h; exact hl
        · simp [readSlice, hl] at h
      · by_cases hlt : pos < encLen d
        · simp [readSlice, hp, hlt] at h
        · simp [readSlice, hp, hlt] at h
          exact ih h

theorem readSlice_append_exact (l1 : List Command) (c : Command) (l2 : List Command) :
    readSlice (l1 ++ c :: l2) (logSize l1) (encLen c) = some c := by
  induction l1 with
  | nil => simp [readSlice, logSize_nil]
  | cons d rest ih =>
      have hd := encLen_pos d
      have hp : logSize (d :: rest) ≠ 0 := by
        rw [logSize_cons]; omega
      have hlt : ¬ logSize (d :: rest) < encLen d := by
        rw [logSize_cons]; omega
      have hsub : logSize (d :: rest) - encLen d = logSize rest := by
        rw [logSize_cons]; omega
      simp only [List.cons_append, readSlice, if_neg hp, if_neg hlt, hsub]
      exact ih

theorem readSlice_extend {log : List Command} {pos len : Nat} {c : Command}
    (h : readSlice log pos len = some c) (ext : List Command) :
    readSlice (log ++ ext) pos len = some c := by
  induction log generalizing pos with
  | nil => simp [readSlice] at h
  | cons d rest ih =>
      by_cases hp : pos = 0
      · subst hp
        by_cases hl : len = encLen d
        · simp [readSlice, hl] at h
          simp [readSlice, hl, h]
        · simp [readSlice, hl] at h
      · by_cases hlt : pos < encLen d
        · simp [readSlice, hp, hlt] at h
        · simp only [readSlice, if_neg hp, if_neg hlt] at h
          simp only [List.cons_append, readSlice, if_neg hp, if_neg hlt]
          exact ih h

/-! ## Association-list (index) lemmas -/

theorem idxGet_insert (idx : Index) (k : String) (p : CommandPos) (k2 : String) :
    idxGet (idxInsert idx k p).2 k2 = if k = k2 then some p else idxGet idx k2 := by
  induction idx with
  | nil => by_cases h : k = k2 <;> simp [idxInsert, idxGet, h]
  | cons e rest ih =>
      obtain ⟨a, q⟩ := e
      by_cases ha : a = k
      · subst ha
        by_cases h2 : a = k2 <;> simp [idxInsert, idxGet, h2]
      · by_cases h2 : a = k2
        · subst h2
          have : ¬ k = a := fun h => ha h.symm
          simp [idxInsert, ha, idxGet, this]
        · simp [idxInsert, ha, idxGet, h2, ih]

theorem idxRemove_ne (idx : Index) {k k2 : String} (h : k ≠ k2) :
    idxGet (idxRemove idx k).2 k2 = idxGet idx k2 := by
  induction idx with
  | nil => simp [idxRemove]
  | cons e rest ih =>
      obtain ⟨a, q⟩ := e
      by_cases ha : a = k
      · subst ha
        have h2 : ¬ a = k2 := fun hh => h hh
        simp [idxRemove, idxGet, h2]
      · by_cases h2 : a = k2
        · subst h2
          simp [idxRemove, ha, idxGet]
        · simp [idxRemove, ha, idxGet, h2, ih]

theorem idxGet_none_of_not_mem {idx : Index} {k : String} (h : k ∉ keysOf idx) :
    idxGet idx k = none := by
  induction idx with
  | nil => rfl
  | cons e rest ih =>
      obtain ⟨a, q⟩ := e
      have ha : ¬ a = k := by
        intro hh
        exact h (by simp [keysOf, hh])
      have hrest : k ∉ keysOf rest := by
        intro hh
        exact h (by simp [keysOf]; right; simpa [keysOf] using hh)
      simp [idxGet, ha]
      exact ih hrest

theorem mem_keys_of_idxGet_some {idx : Index} {k : String} {p : CommandPos}
    (h : idxGet idx k = some p) : k ∈ keysOf idx := by
  induction idx with
  | nil => simp [idxGet] at h
  | cons e rest ih =>
      obtain ⟨a, q⟩ := e
      by_cases ha : a = k
      · subst ha; simp [keysOf]
      · simp [idxGet, ha] at h
        have := ih h
        simp [keysOf] at this ⊢
        right
        exact this

theorem mem_of_idxGet_some {idx : Index} {k : String} {p : CommandPos}
    (h : idxGet idx k = some p) : (k, p) ∈ idx := by
  induction idx with
  | nil => simp [idxGet] at h
  | cons e rest ih =>
      obtain ⟨a, q⟩ := e
      by_cases ha : a = k
      · subst ha
        simp [idxGet] at h
        simp [h]
      · simp [idxGet, ha] at h
        simp [ih h]

theorem idxGet_of_mem_nodup {idx : Index} {k : String} {p : CommandPos}
    (hnd : NodupKeys idx) (h : (k, p) ∈ idx) : idxGet idx k = some p := by
  induction idx with
  | nil => simp at h
  | cons e rest ih =>
      obtain ⟨a, q⟩ := e
      have hnd' : (a :: keysOf rest).Nodup := hnd
      have hnd2 : NodupKeys rest := (List.nodup_cons.mp hnd').2
      have hnotin : a ∉ keysOf rest := (List.nodup_cons.mp hnd').1
      rcases List.mem_cons.mp h with heq | hmem
      · injection heq with h1 h2
        subst h1; subst h2
        simp [idxGet]
      · have hk : k ∈ keysOf rest := by
          simp [keysOf]
          exact ⟨p, hmem⟩
        have ha : ¬ a = k := by
          intro hh
          subst hh
          exact hnotin hk
        simp [idxGet, ha]
        exact ih hnd2 hmem

theorem idxRemove_fst (idx : Index) (k : String) : (idxRemove idx k).1 = idxGet idx k := by
  induction idx with
  | nil => rfl
  | cons e rest ih =>
      obtain ⟨a, q⟩ := e
      by_cases ha : a = k
      · simp [idxRemove, idxGet, ha]
      · simp [idxRemove, idxGet, ha, ih]

theorem idxInsert_fst (idx : Index) (k : String) (p : CommandPos) :
    (idxInsert idx k p).1 = idxGet idx k := by
  induction idx with
  | nil => rfl
  | cons e rest ih =>
      obtain ⟨a, q⟩ := e
      by_cases ha : a = k
      · simp [idxInsert, idxGet, ha]
      · simp [idxInsert, idxGet, ha, ih]

theorem idxGet_remove_self {idx : Index} (hnd : NodupKeys idx) (k : String) :
    idxGet (idxRemove idx k).2 k = none := by
  induction idx with
  | nil => rfl
  | cons e rest ih =>
      obtain ⟨a, q⟩ := e
      have hnd' : (a :: keysOf rest).Nodup := hnd
      have hnd2 : NodupKeys rest := (List.nodup_cons.mp hnd').2
      have hnotin : a ∉ keysOf rest := (List.nodup_cons.mp hnd').1
      by_cases ha : a = k
      · subst ha
        simp only [idxRemove, if_pos rfl]
        exact idxGet_none_of_not_mem hnotin
      · simp [idxRemove, ha, idxGet]
        exact ih hnd2

theorem idxInsert_fresh {idx : Index} {k : String} (h : idxGet idx k = none) (p : CommandPos) :
    idxInsert idx k p = (none, idx ++ [(k, p)]) := by
  induction idx with
  | nil => rfl
  | cons e rest ih =>
      obtain ⟨a, q⟩ := e
      by_cases ha : a = k
      · simp [idxGet, ha] at h
      · simp [idxGet, ha] at h
        simp [idxInsert, ha, ih h]

theorem mem_keys_insert {idx : Index} {k x : String} {p : CommandPos}
    (h : x ∈ keysOf (idxInsert idx k p).2) : x ∈ keysOf idx ∨ x = k := by
  induction idx with
  | nil =>
      simp [idxInsert, keysOf] at h
      exact Or.inr h
  | cons e rest ih =>
      obtain ⟨a, q⟩ := e
      by_cases ha : a = k
      · subst ha
        simp [idxInsert, keysOf] at h
        rcases h with h | h
        · exact Or.inr h
        · exact Or.inl (by simp [keysOf]; right; simpa [keysOf] using h)
      · simp [idxInsert, ha, keysOf] at h
        rcases h with h | h
        · exact Or.inl (by simp [keysOf, h])
        · rcases ih (by simpa [keysOf] using h) with h2 | h2
          · exact Or.inl (by simp [keysOf]; right; simpa [keysOf] using h2)
          · exact Or.inr h2

theorem nodup_insert {idx : Index} (hnd : NodupKeys idx) (k : String) (p : CommandPos) :
    NodupKeys (idxInsert idx k p).2 := by
  induction idx with
  | nil => simp [idxInsert, NodupKeys, keysOf]
  | cons e rest ih =>
      obtain ⟨a, q⟩ := e
      have hnd' : (a :: keysOf rest).Nodup := hnd
      have hnd2 : NodupKeys rest := (List.nodup_cons.mp hnd').2
      have hnotin : a ∉ keysOf rest := (List.nodup_cons.mp hnd').1
      by_cases ha : a = k
      · subst ha
        have : NodupKeys ((a, p) :: rest) := by
          show (a :: keysOf rest).Nodup
          exact List.nodup_cons.mpr ⟨hnotin, hnd2⟩
        simpa [idxInsert] using this
      · have htail := ih hnd2
        have hmem : a ∉ keysOf (idxInsert rest k p).2 := by
          intro hx
          rcases mem_keys_insert hx with h2 | h2
          · exact hnotin h2
          · exact ha h2
        have : NodupKeys ((a, q) :: (idxInsert rest k p).2) := by
          show (a :: keysOf (idxInsert rest k p).2).Nodup
          exact List.nodup_cons.mpr ⟨hmem, htail⟩
        simpa [idxInsert, ha] using this

theorem mem_keys_remove {idx : Index} {k x : String}
    (h : x ∈ keysOf (idxRemove idx k).2) : x ∈ keysOf idx := by
  induction idx with
  | nil => simpa [idxRemove] using h
  | cons e rest ih =>
      obtain ⟨a, q⟩ := e
      by_cases ha : a = k
      · subst ha
        simp only [idxRemove, if_pos rfl] at h
        simp [keysOf]
        right
        simpa [keysOf] using h
      · simp [idxRemove, ha, keysOf] at h
        rcases h with h | h
        · simp [keysOf, h]
        · simp [keysOf]
          right
          simpa [keysOf] using ih (by simpa [keysOf] using h)

theorem nodup_remove {idx : Index} (hnd : NodupKeys idx) (k : String) :
    NodupKeys (idxRemove idx k).2 := by
  induction idx with
  | nil => simpa [idxRemove] using hnd
  | cons e rest ih =>
      obtain ⟨a, q⟩ := e
      have hnd' : (a :: keysOf rest).Nodup := hnd
      have hnd2 : NodupKeys rest := (List.nodup_cons.mp hnd').2
      have hnotin : a ∉ keysOf rest := (List.nodup_cons.mp hnd').1
      by_cases ha : a = k
      · subst ha
        simpa [idxRemove] using hnd2
      · have hmem : a ∉ keysOf (idxRemove rest k).2 := fun hx => hnotin (mem_keys_remove hx)
        have : NodupKeys ((a, q) :: (idxRemove rest k).2) := by
          show (a :: keysOf (idxRemove rest k).2).Nodup
          exact List.nodup_cons.mpr ⟨hmem, ih hnd2⟩
        simpa [idxRemove, ha] using this

/-! ## Replay lemmas -/

theorem replayAux_append (l1 l2 : List Command) (pos : Nat) (idx : Index) :
    KvStore.replayAux (l1 ++ l2) pos idx
      = KvStore.replayAux l2 (pos + logSize l1) (KvStore.replayAux l1 pos idx) := by
  induction l1 generalizing pos idx with
  | nil => simp [KvStore.replayAux, logSize_nil]
  | cons c rest ih =>
      simp only [List.cons_append, KvStore.replayAux, logSize_cons]
      rw [List.append_eq, ih]
      congr 1
      omega

theorem replay_snoc_set (log : List Command) (k v : String) :
    KvStore.replay (log ++ [Command.Set k v])
      = (idxInsert (KvStore.replay log) k ⟨logSize log, encLen (Command.Set k v)⟩).2 := by
  rw [KvStore.replay, replayAux_append]
  simp [KvStore.replayAux, KvStore.replay]

theorem replay_snoc_rm (log : List Command) (k : String) :
    KvStore.replay (log ++ [Command.Rm k]) = (idxRemove (KvStore.replay log) k).2 := by
  rw [KvStore.replay, replayAux_append]
  simp [KvStore.replayAux, KvStore.replay]

theorem replayAux_nodup (l : List Command) (pos : Nat) {idx : Index} (hnd : NodupKeys idx) :
    NodupKeys (KvStore.replayAux l pos idx) := by
  induction l generalizing pos idx with
  | nil => simpa [KvStore.replayAux] using hnd
  | cons c rest ih =>
      cases c with
      | Set k v =>
          simp only [KvStore.replayAux]
          exact ih _ (nodup_insert hnd k _)
      | Rm k =>
          simp only [KvStore.replayAux]
          exact ih _ (nodup_remove hnd k)

theorem replay_nodup (log : List Command) : NodupKeys (KvStore.replay log) :=
  replayAux_nodup log 0 (by simp [NodupKeys, keysOf])

theorem replayAux_aligned (rest pre : List Command) {idx : Index}
    (hnd : NodupKeys idx) (hal : alignedIdx idx (pre ++ rest)) :
    alignedIdx (KvStore.replayAux rest (logSize pre) idx) (pre ++ rest) := by
  induction rest generalizing pre idx with
  | nil => simpa [KvStore.replayAux] using hal
  | cons c rest2 ih =>
      have hassoc : pre ++ c :: rest2 = (pre ++ [c]) ++ rest2 := by simp
      have hsize : logSize pre + encLen c = logSize (pre ++ [c]) := by
        rw [logSize_append, logSize_singleton]
      cases c with
      | Set k v =>
          simp only [KvStore.replayAux]
          rw [hsize, hassoc]
          refine ih (pre ++ [Command.Set k v]) (nodup_insert hnd k _) ?_
          intro k2 p2 hget
          rw [idxGet_insert] at hget
          by_cases hk : k = k2
          · subst hk
            simp at hget
            subst hget
            refine ⟨v, ?_⟩
            rw [← hassoc]
            exact readSlice_append_exact pre (Command.Set k v) rest2
          · rw [if_neg hk] at hget
            rw [← hassoc]
            exact hal k2 p2 hget
      | Rm k =>
          simp only [KvStore.replayAux]
          rw [hsize, hassoc]
          refine ih (pre ++ [Command.Rm k]) (nodup_remove hnd k) ?_
          intro k2 p2 hget
          by_cases hk : k = k2
          · subst hk
            rw [idxGet_remove_self hnd] at hget
            exact absurd hget (by simp)
          · rw [idxRemove_ne _ hk] at hget
            rw [← hassoc]
            exact hal k2 p2 hget

theorem replay_aligned (log : List Command) : alignedIdx (KvStore.replay log) log := by
  have h := @replayAux_aligned log [] [] (by simp [NodupKeys, keysOf]) ?_
  · simpa [KvStore.replay, logSize_nil] using h
  · intro k p hget
    simp [idxGet] at hget

/-! ## The reachable-state invariant -/

theorem WF_nodup {s : KvState} (h : WF s) : NodupKeys s.index := by
  rw [h]; exact replay_nodup s.log

theorem WF_aligned {s : KvState} (h : WF s) : alignedIdx s.index s.log := by
  rw [h]; exact replay_aligned s.log

theorem get_eq_valueAt {s : KvState} (h : WF s) (k : String) :
    KvStore.get k s = Except.ok (valueAt s k) := by
  unfold KvStore.get valueAt
  cases hget : idxGet s.index k with
  | none => rfl
  | some p =>
      obtain ⟨v, hv⟩ := WF_aligned h k p hget
      simp [hv]

/-! ## Compaction: canonical layouts -/

theorem keysOf_canonical (pairs : List (String × Command)) (pos : Nat) :
    keysOf (canonical pairs pos) = pairs.map Prod.fst := by
  induction pairs generalizing pos with
  | nil => rfl
  | cons e rest ih =>
      obtain ⟨k, c⟩ := e
      simp [canonical, keysOf] at ih ⊢
      exact ih _

/-- Success characterisation of the compaction loop: whatever it
returns is a canonical layout of pairs read from the old log, one pair
per index entry in order. -/
theorem compactAux_ok_shape {oldLog : List Command} {entries : Index} {pos : Nat}
    {idx2 : Index} {log2 : List Command}
    (h : KvStore.compactAux oldLog entries pos = Except.ok (idx2, log2)) :
    ∃ pairs : List (String × Command),
      idx2 = canonical pairs pos ∧ log2 = pairs.map Prod.snd ∧
      List.Forall₂
        (fun (e : String × CommandPos) (pr : String × Command) =>
          e.1 = pr.1 ∧ readSlice oldLog e.2.pos e.2.len = some pr.2 ∧ e.2.len = encLen pr.2)
        entries pairs := by
  induction entries generalizing pos idx2 log2 with
  | nil =>
      simp only [KvStore.compactAux] at h
      have h3 := Except.ok.inj h
      refine ⟨[], ?_, ?_, List.Forall₂.nil⟩
      · exact (congrArg Prod.fst h3).symm
      · exact (congrArg Prod.snd h3).symm
  | cons e rest ih =>
      obtain ⟨k, r⟩ := e
      cases hrs : readSlice oldLog r.pos r.len with
      | none => simp [KvStore.compactAux, hrs] at h
      | some c =>
          cases hrec : KvStore.compactAux oldLog rest (pos + r.len) with
          | error e2 => simp [KvStore.compactAux, hrs, hrec] at h
          | ok pr =>
              obtain ⟨i2, l2⟩ := pr
              obtain ⟨pairs2, hi2, hl2, hrel⟩ := ih hrec
              simp [KvStore.compactAux, hrs, hrec] at h
              have hlen : r.len = encLen c := readSlice_len hrs
              refine ⟨(k, c) :: pairs2, ?_, ?_, ?_⟩
              · rw [← h.1]
                simp [canonical, hi2, hlen]
              · rw [← h.2]
                simp [hl2]
              · exact List.Forall₂.cons ⟨rfl, hrs, hlen⟩ hrel

theorem idxGet_append_of_none {a : Index} {k : String} (h : idxGet a k = none) (b : Index) :
    idxGet (a ++ b) k = idxGet b k := by
  induction a with
  | nil => rfl
  | cons e rest ih =>
      obtain ⟨a2, q⟩ := e
      by_cases ha : a2 = k
      · simp [idxGet, ha] at h
      · simp [idxGet, ha] at h ⊢
        exact ih h

/-- Rerunning the compaction loop over a canonical layout reads back
exactly the same records and reassigns the same offsets. -/
theorem compactAux_canonical (pairs : List (String × Command)) :
    ∀ (pre : List Command) (q : Nat),
    KvStore.compactAux (pre ++ pairs.map Prod.snd) (canonical pairs (logSize pre)) q
      = Except.ok (canonical pairs q, pairs.map Prod.snd) := by
  induction pairs with
  | nil =>
      intro pre q
      simp [canonical, KvStore.compactAux]
  | cons e rest ih =>
      obtain ⟨k, c⟩ := e
      intro pre q
      have hread : readSlice (pre ++ c :: rest.map Prod.snd) (logSize pre) (encLen c) = some c :=
        readSlice_append_exact pre c (rest.map Prod.snd)
      have heq : pre ++ c :: rest.map Prod.snd = (pre ++ [c]) ++ rest.map Prod.snd := by simp
      have hsize : logSize pre + encLen c = logSize (pre ++ [c]) := by
        rw [logSize_append, logSize_singleton]
      simp only [canonical, List.map_cons, KvStore.compactAux]
      rw [hread, hsize, heq, ih (pre ++ [c]) (q + encLen c)]

/-- Replaying a log of fresh `Set` records laid out consecutively yields
its canonical index. -/
theorem replayAux_canonical (pairs : List (String × Command))
    (hset : ∀ pr ∈ pairs, ∃ v, pr.2 = Command.Set pr.1 v)
    (hnd : (pairs.map Prod.fst).Nodup) :
    ∀ (pos : Nat) (acc : Index), (∀ pr ∈ pairs, idxGet acc pr.1 = none) →
    KvStore.replayAux (pairs.map Prod.snd) pos acc = acc ++ canonical pairs pos := by
  induction pairs with
  | nil =>
      intro pos acc _
      simp [KvStore.replayAux, canonical]
  | cons e rest ih =>
      obtain ⟨k, c⟩ := e
      intro pos acc hfresh
      obtain ⟨v, hv⟩ := hset (k, c) (by simp)
      simp only at hv
      subst hv
      simp only [List.map_cons, KvStore.replayAux]
      rw [idxInsert_fresh (hfresh (k, Command.Set k v) (by simp)) _]
      have hnd2 : (rest.map Prod.fst).Nodup := (List.nodup_cons.mp (by simpa using hnd)).2
      have hknotin : k ∉ rest.map Prod.fst := (List.nodup_cons.mp (by simpa using hnd)).1
      have hset2 : ∀ pr ∈ rest, ∃ v2, pr.2 = Command.Set pr.1 v2 :=
        fun pr hpr => hset pr (by simp [hpr])
      have hfresh2 : ∀ pr ∈ rest,
          idxGet (acc ++ [(k, ⟨pos, encLen (Command.Set k v)⟩)]) pr.1 = none := by
        intro pr hpr
        have hne : ¬ k = pr.1 := by
          intro hh
          exact hknotin (by
            subst hh
            exact List.mem_map.mpr ⟨pr, hpr, rfl⟩)
        rw [idxGet_append_of_none (hfresh pr (by simp [hpr])) _]
        simp [idxGet, hne]
      rw [ih hset2 hnd2 _ _ hfresh2]
      simp [canonical]

/-- The compaction loop succeeds whenever every entry's byte range reads
back a record. -/
theorem compactAux_isOk {oldLog : List Command} {entries : Index}
    (h : ∀ e ∈ entries, (readSlice oldLog e.2.pos e.2.len).isSome) (pos : Nat) :
    ∃ pr, KvStore.compactAux oldLog entries pos = Except.ok pr := by
  induction entries generalizing pos with
  | nil => exact ⟨([], []), rfl⟩
  | cons e rest ih =>
      obtain ⟨k, r⟩ := e
      have hhd := h (k, r) (by simp)
      rw [Option.isSome_iff_exists] at hhd
      obtain ⟨c, hc⟩ := hhd
      obtain ⟨pr, hpr⟩ := ih (fun e2 he2 => h e2 (by simp [he2])) (pos + r.len)
      refine ⟨((k, ⟨pos, r.len⟩) :: pr.1, c :: pr.2), ?_⟩
      simp [KvStore.compactAux, hc, hpr]

theorem forall2_map_fst {R : String × CommandPos → String × Command → Prop}
    (hfst : ∀ a b, R a b → a.1 = b.1)
    {entries : Index} {pairs : List (String × Command)}
    (hrel : List.Forall₂ R entries pairs) :
    entries.map Prod.fst = pairs.map Prod.fst := by
  induction hrel with
  | nil => rfl
  | cons hab _ ih =>
      simp [ih]
      exact hfst _ _ hab

theorem forall2_right_mem {α β : Type} {R : α → β → Prop} {l1 : List α} {l2 : List β}
    (hrel : List.Forall₂ R l1 l2) {b : β} (hb : b ∈ l2) : ∃ a ∈ l1, R a b := by
  induction hrel with
  | nil => simp at hb
  | cons hab htl ih =>
      rcases List.mem_cons.mp hb with hb2 | hb2
      · subst hb2
        exact ⟨_, by simp, hab⟩
      · obtain ⟨a, ha, hr⟩ := ih hb2
        exact ⟨a, by simp [ha], hr⟩

/-- Tracking one live entry through compaction: the new index finds the
key at a range of the new log that reads back the very record the old
range held. -/
theorem canonical_lookup {oldLog : List Command} {entries : Index}
    {pairs : List (String × Command)}
    (hrel : List.Forall₂
      (fun (e : String × CommandPos) (pr : String × Command) =>
        e.1 = pr.1 ∧ readSlice oldLog e.2.pos e.2.len = some pr.2 ∧ e.2.len = encLen pr.2)
      entries pairs) :
    ∀ (pre : List Command) (k : String) (p : CommandPos),
      idxGet entries k = some p →
      ∃ c, readSlice oldLog p.pos p.len = some c ∧
        ∃ p2, idxGet (canonical pairs (logSize pre)) k = some p2 ∧
          readSlice (pre ++ pairs.map Prod.snd) p2.pos p2.len = some c := by
  induction hrel with
  | nil =>
      intro pre k p hget
      simp [idxGet] at hget
  | @cons a b l1 l2 hab htl ih =>
      intro pre k p hget
      obtain ⟨ka, ra⟩ := a
      obtain ⟨kb, cb⟩ := b
      obtain ⟨hfst, hread, hlen⟩ := hab
      simp only at hfst hread hlen
      subst hfst
      by_cases hk : ka = k
      · subst hk
        simp [idxGet] at hget
        subst hget
        refine ⟨cb, hread, ⟨logSize pre, encLen cb⟩, ?_, ?_⟩
        · simp [canonical, idxGet]
        · have := readSlice_append_exact pre cb (l2.map Prod.snd)
          simpa using this
      · have hget2 : idxGet l1 k = some p := by simpa [idxGet, hk] using hget
        have hsize : logSize pre + encLen cb = logSize (pre ++ [cb]) := by
          rw [logSize_append, logSize_singleton]
        obtain ⟨c, hc, p2, hp2, hread2⟩ := ih (pre ++ [cb]) k p hget2
        refine ⟨c, hc, p2, ?_, ?_⟩
        · simp only [canonical, idxGet, if_neg hk, List.map_cons]
          rw [hsize]
          exact hp2
        · rw [List.map_cons,
            show pre ++ cb :: l2.map Prod.snd = (pre ++ [cb]) ++ l2.map Prod.snd from by simp]
          exact hread2

/-- On a well-formed state compaction succeeds, preserves well-formedness
and the redundancy counter, and leaves every key's live value intact. -/
theorem log_compact_WF {s : KvState} (h : WF s) :
    ∃ s2, KvStore.log_compact s = Except.ok s2 ∧ WF s2 ∧
      s2.redundance_bytes = s.redundance_bytes ∧
      ∀ k, valueAt s2 k = valueAt s k := by
  have hnd : NodupKeys s.index := WF_nodup h
  have hal : alignedIdx s.index s.log := WF_aligned h
  have hsome : ∀ e ∈ s.index, (readSlice s.log e.2.pos e.2.len).isSome := by
    intro e he
    obtain ⟨ke, re⟩ := e
    obtain ⟨v, hv⟩ := hal ke re (idxGet_of_mem_nodup hnd he)
    simp [hv]
  obtain ⟨pr, hok⟩ := compactAux_isOk hsome 0
  obtain ⟨idx2, log2⟩ := pr
  obtain ⟨pairs, hi, hl, hrel⟩ := compactAux_ok_shape hok
  have hkeys : s.index.map Prod.fst = pairs.map Prod.fst :=
    forall2_map_fst (fun a b hab => hab.1) hrel
  have hndp : (pairs.map Prod.fst).Nodup := by
    rw [← hkeys]
    exact hnd
  have hset : ∀ pr2 ∈ pairs, ∃ v, pr2.2 = Command.Set pr2.1 v := by
    intro pr2 hpr2
    obtain ⟨a, ha, hab⟩ := forall2_right_mem hrel hpr2
    obtain ⟨ka, ra⟩ := a
    obtain ⟨kp, cp⟩ := pr2
    obtain ⟨hfst, hread, hlen⟩ := hab
    simp only at hfst hread hlen
    subst hfst
    obtain ⟨v, hv⟩ := hal ka ra (idxGet_of_mem_nodup hnd ha)
    rw [hv] at hread
    exact ⟨v, (Option.some.inj hread).symm⟩
  have hreplay : KvStore.replay log2 = idx2 := by
    rw [hl, hi]
    have := replayAux_canonical pairs hset hndp 0 [] (by intro pr2 _; rfl)
    simpa [KvStore.replay] using this
  refine ⟨{s with index := idx2, log := log2}, ?_, ?_, rfl, ?_⟩
  · simp [KvStore.log_compact, hok]
  · show idx2 = KvStore.replay log2
    exact hreplay.symm
  · intro k
    cases hget : idxGet s.index k with
    | none =>
        have hnotin : k ∉ keysOf s.index := by
          intro hmem
          obtain ⟨⟨k2, p2⟩, hm, hk2⟩ := List.mem_map.mp hmem
          simp only at hk2
          subst hk2
          rw [idxGet_of_mem_nodup hnd hm] at hget
          exact absurd hget (by simp)
        have hno2 : idxGet idx2 k = none := by
          refine idxGet_none_of_not_mem ?_
          rw [hi]
          show k ∉ keysOf (canonical pairs 0)
          rw [keysOf_canonical, ← hkeys]
          exact hnotin
        simp [valueAt, hget, hno2]
    | some p =>
        obtain ⟨v, hv⟩ := hal k p hget
        obtain ⟨c, hc, p2, hp2, hread2⟩ := canonical_lookup hrel [] k p hget
        have hcv : c = Command.Set k v := by
          rw [hv] at hc
          exact (Option.some.inj hc).symm
        subst hcv
        rw [logSize_nil] at hp2
        rw [List.nil_append] at hread2
        simp only [valueAt, hget, hv, hi, hl]
        simp [hp2, hread2]

/-- A log and index produced by one successful compaction are a fixed
point of compaction. -/
theorem log_compact_twice {s s2 : KvState} (h : KvStore.log_compact s = Except.ok s2) :
    KvStore.log_compact s2 = Except.ok s2 := by
  unfold KvStore.log_compact at h
  cases haux : KvStore.compactAux s.log s.index 0 with
  | error e =>
      rw [haux] at h
      exact absurd h (by simp)
  | ok pr =>
      rw [haux] at h
      obtain ⟨idx2, log2⟩ := pr
      have hs2 : ({ s with index := idx2, log := log2 } : KvState) = s2 := by
        simpa using h
      obtain ⟨pairs, hi, hl, hrel⟩ := compactAux_ok_shape haux
      have h2 := compactAux_canonical pairs [] 0
      rw [logSize_nil, List.nil_append] at h2
      unfold KvStore.log_compact
      have hidx : s2.index = canonical pairs 0 := by
        rw [← hs2, hi]
      have hlog : s2.log = pairs.map Prod.snd := by
        rw [← hs2, hl]
      rw [hidx, hlog, h2]
      cases s2
      simp at hidx hlog
      simp [hidx, hlog]

/-! ## Shapes of `set` and `remove` -/

theorem valueAt_red (s : KvState) (n : Nat) (k : String) :
    valueAt { s with redundance_bytes := n } k = valueAt s k := rfl

theorem WF_red (s : KvState) (n : Nat) : WF { s with redundance_bytes := n } ↔ WF s :=
  Iff.rfl

theorem set_invalid_key {key : String} (hk : ¬ strBytes key ≤ 256) (value : String)
    (s : KvState) : KvStore.set key value s = (Except.error KvsError.InvalidKeySize, s) := by
  unfold KvStore.set
  simp [check_length, hk]

theorem set_invalid_value {key value : String} (hk : strBytes key ≤ 256)
    (hv : ¬ strBytes value ≤ 2 ^ 12) (s : KvState) :
    KvStore.set key value s = (Except.error KvsError.InvalidValueSize, s) := by
  have hv2 : ¬ strBytes value ≤ 4096 := by simpa using hv
  unfold KvStore.set
  simp [check_length, hk, hv2]

theorem set_valid_eq {key value : String} (hk : strBytes key ≤ 256)
    (hv : strBytes value ≤ 2 ^ 12) (s : KvState) :
    KvStore.set key value s =
      (if (setMid key value s).redundance_bytes ≥ REDUNDANCE_THRESHOLD then
        match KvStore.log_compact (setMid key value s) with
        | Except.ok s2 => (Except.ok (), { s2 with redundance_bytes := 0 })
        | Except.error e => (Except.error e, setMid key value s)
      else (Except.ok (), setMid key value s)) := by
  have hv2 : strBytes value ≤ 4096 := by simpa using hv
  unfold KvStore.set setMid
  simp [check_length, hk, hv2, logSize_append, logSize_singleton]

theorem removeF_none_eq {s : KvState} {key : String} (h : idxGet s.index key = none)
    (ae : Option KvsError) :
    KvStore.removeF ae key s = (Except.error KvsError.KeyNotFound, s) := by
  have hfst : (idxRemove s.index key).1 = none := by rw [idxRemove_fst, h]
  unfold KvStore.removeF
  rcases hsplit : idxRemove s.index key with ⟨o, idx1⟩
  rw [hsplit] at hfst
  simp only at hfst
  subst hfst
  rfl

theorem removeF_some_eq {s : KvState} {key : String} {p : CommandPos}
    (h : idxGet s.index key = some p) (ae : Option KvsError) :
    KvStore.removeF ae key s =
      match ae with
      | some e => (Except.error e, { s with index := (idxRemove s.index key).2 })
      | none =>
        if (removeMid key p s).redundance_bytes ≥ REDUNDANCE_THRESHOLD then
          match KvStore.log_compact (removeMid key p s) with
          | Except.ok s2 => (Except.ok (), s2)
          | Except.error e => (Except.error e, removeMid key p s)
        else (Except.ok (), removeMid key p s) := by
  have hfst : (idxRemove s.index key).1 = some p := by rw [idxRemove_fst, h]
  unfold KvStore.removeF removeMid
  rcases hsplit : idxRemove s.index key with ⟨o, idx1⟩
  rw [hsplit] at hfst
  simp only at hfst
  subst hfst
  cases ae with
  | some e => rfl
  | none =>
      simp [logSize_append, logSize_singleton]

/-! ## Preservation of the invariant and of untouched keys -/

theorem setMid_WF {s : KvState} (h : WF s) (key value : String) :
    WF (setMid key value s) := by
  show (idxInsert s.index key ⟨logSize s.log, encLen (Command.Set key value)⟩).2
      = KvStore.replay (s.log ++ [Command.Set key value])
  rw [replay_snoc_set, ← h]

theorem setMid_valueAt_key {s : KvState} (key value : String) :
    valueAt (setMid key value s) key = some value := by
  unfold valueAt setMid
  simp only [idxGet_insert, if_pos rfl]
  have hread : readSlice (s.log ++ [Command.Set key value]) (logSize s.log)
      (encLen (Command.Set key value)) = some (Command.Set key value) := by
    have := readSlice_append_exact s.log (Command.Set key value) []
    simpa using this
  simp [hread]

theorem setMid_valueAt_other {s : KvState} (h : WF s) (key value : String)
    {k2 : String} (hne : k2 ≠ key) :
    valueAt (setMid key value s) k2 = valueAt s k2 := by
  unfold valueAt setMid
  simp only [idxGet_insert, if_neg (fun hh : key = k2 => hne hh.symm)]
  cases hget : idxGet s.index k2 with
  | none => rfl
  | some p =>
      obtain ⟨v, hv⟩ := WF_aligned h k2 p hget
      simp [hv, readSlice_extend hv]

theorem removeMid_WF {s : KvState} (h : WF s) (key : String) (p : CommandPos) :
    WF (removeMid key p s) := by
  show (idxRemove s.index key).2 = KvStore.replay (s.log ++ [Command.Rm key])
  rw [replay_snoc_rm, ← h]

theorem removeMid_valueAt_other {s : KvState} (h : WF s) (key : String) (p : CommandPos)
    {k2 : String} (hne : k2 ≠ key) :
    valueAt (removeMid key p s) k2 = valueAt s k2 := by
  unfold valueAt removeMid
  simp only [idxRemove_ne s.index (fun hh : key = k2 => hne hh.symm)]
  cases hget : idxGet s.index k2 with
  | none => rfl
  | some q =>
      obtain ⟨v, hv⟩ := WF_aligned h k2 q hget
      simp [hv, readSlice_extend hv]

/-- `set` with valid sizes succeeds, keeps the state well-formed, makes
the key read back the new value, and leaves other keys' values alone. -/
theorem set_ok {s : KvState} (h : WF s) {key value : String}
    (hk : strBytes key ≤ 256) (hv : strBytes value ≤ 2 ^ 12) :
    (KvStore.set key value s).1 = Except.ok () ∧
    WF (KvStore.set key value s).2 ∧
    valueAt (KvStore.set key value s).2 key = some value ∧
    ∀ k2, k2 ≠ key → valueAt (KvStore.set key value s).2 k2 = valueAt s k2 := by
  rw [set_valid_eq hk hv]
  have hmidWF := setMid_WF h key value
  by_cases hred : (setMid key value s).redundance_bytes ≥ REDUNDANCE_THRESHOLD
  · obtain ⟨s2, hok, hWF2, _, hval2⟩ := log_compact_WF hmidWF
    rw [if_pos hred, hok]
    refine ⟨rfl, ?_, ?_, ?_⟩
    · exact (WF_red s2 0).mpr hWF2
    · rw [valueAt_red, hval2, setMid_valueAt_key]
    · intro k2 hne
      rw [valueAt_red, hval2, setMid_valueAt_other h key value hne]
  · rw [if_neg hred]
    exact ⟨rfl, hmidWF, setMid_valueAt_key key value,
      fun k2 hne => setMid_valueAt_other h key value hne⟩

/-- Any `set` call (valid or not) keeps the state well-formed and leaves
the values of other keys alone. -/
theorem set_frame {s : KvState} (h : WF s) (key value : String) :
    WF (KvStore.set key value s).2 ∧
    ∀ k2, k2 ≠ key → valueAt (KvStore.set key value s).2 k2 = valueAt s k2 := by
  by_cases hk : strBytes key ≤ 256
  · by_cases hv : strBytes value ≤ 2 ^ 12
    · obtain ⟨_, h2, _, h4⟩ := set_ok h hk hv
      exact ⟨h2, h4⟩
    · rw [set_invalid_value hk hv]
      exact ⟨h, fun _ _ => rfl⟩
  · rw [set_invalid_key hk]
    exact ⟨h, fun _ _ => rfl⟩

/-- Any `remove` call keeps the state well-formed and leaves the values
of other keys alone. -/
theorem remove_frame {s : KvState} (h : WF s) (key : String) :
    WF (KvStore.remove key s).2 ∧
    ∀ k2, k2 ≠ key → valueAt (KvStore.remove key s).2 k2 = valueAt s k2 := by
  cases hget : idxGet s.index key with
  | none =>
      rw [KvStore.remove, removeF_none_eq hget]
      exact ⟨h, fun _ _ => rfl⟩
  | some p =>
      rw [KvStore.remove, removeF_some_eq hget]
      have hmidWF := removeMid_WF h key p
      by_cases hred : (removeMid key p s).redundance_bytes ≥ REDUNDANCE_THRESHOLD
      · obtain ⟨s2, hok, hWF2, _, hval2⟩ := log_compact_WF hmidWF
        simp only [if_pos hred, hok]
        refine ⟨hWF2, ?_⟩
        intro k2 hne
        rw [hval2, removeMid_valueAt_other h key p hne]
      · simp only [if_neg hred]
        exact ⟨hmidWF, fun k2 hne => removeMid_valueAt_other h key p hne⟩

theorem applyOp_WF {s : KvState} (h : WF s) (op : Op) : WF (applyOp s op) := by
  cases op with
  | setOp k v => exact (set_frame h k v).1
  | rmOp k => exact (remove_frame h k).1

theorem run_WF {s : KvState} (h : WF s) (ops : List Op) : WF (run s ops) := by
  induction ops generalizing s with
  | nil => exact h
  | cons op rest ih => exact ih (applyOp_WF h op)

theorem applyOp_frame {s : KvState} {k : String} {v : String} (h : WF s)
    (hval : valueAt s k = some v) {op : Op} (hop : opTouches k op = false) :
    valueAt (applyOp s op) k = some v := by
  cases op with
  | setOp k2 v2 =>
      have hne : k ≠ k2 := by
        intro hh
        subst hh
        simp [opTouches] at hop
      rw [show applyOp s (Op.setOp k2 v2) = (KvStore.set k2 v2 s).2 from rfl,
        (set_frame h k2 v2).2 k hne, hval]
  | rmOp k2 =>
      have hne : k ≠ k2 := by
        intro hh
        subst hh
        simp [opTouches] at hop
      rw [show applyOp s (Op.rmOp k2) = (KvStore.remove k2 s).2 from rfl,
        (remove_frame h k2).2 k hne, hval]

theorem run_frame {s : KvState} {k : String} {v : String} (h : WF s)
    (hval : valueAt s k = some v) {ops : List Op}
    (hops : ∀ op ∈ ops, opTouches k op = false) :
    valueAt (run s ops) k = some v := by
  induction ops generalizing s with
  | nil => exact hval
  | cons op rest ih =>
      exact ih (applyOp_WF h op)
        (applyOp_frame h hval (hops op (by simp)))
        (fun op2 hop2 => hops op2 (by simp [hop2]))

/-! # The claims -/

theorem strBytes_replicate (n : Nat) (c : Char) :
    strBytes (String.mk (List.replicate n c)) = n * c.utf8Size := by
  simp [strBytes, bytesLen, List.map_replicate, List.sum_replicate, smul_eq_mul]

theorem strBytes_longKey : strBytes longKey = 257 := by
  rw [longKey, strBytes_replicate]
  rfl

theorem strBytes_longValue : strBytes longValue = 4097 := by
  rw [longValue, strBytes_replicate]
  rfl

/-- Claim C1: for every key of at most 256 bytes and every value of at
most 4096 bytes, after `set(k, v)` returns `Ok` on a well-formed (open)
engine state, every subsequent `get(k)` returns `Some(v)` across any
further `set`/`remove` operations that do not touch that key. -/
theorem set_get_persists_until_overwrite (s : KvState) (k v : String) (ops : List Op)
    (hWF : WF s) (hk : strBytes k ≤ 256) (hv : strBytes v ≤ 4096)
    (hops : ∀ op ∈ ops, opTouches k op = false) :
    (KvStore.set k v s).1 = Except.ok () ∧
    KvStore.get k (run (KvStore.set k v s).2 ops) = Except.ok (some v) := by
  have hv2 : strBytes v ≤ 2 ^ 12 := by simpa using hv
  obtain ⟨h1, h2, h3, _⟩ := set_ok hWF hk hv2
  refine ⟨h1, ?_⟩
  rw [get_eq_valueAt (run_WF h2 ops), run_frame h2 h3 hops]

theorem set_get_persists_until_overwrite_witness :
    (KvStore.set "k" "v" initState).1 = Except.ok () ∧
    KvStore.get "k" (run (KvStore.set "k" "v" initState).2
      [Op.setOp "a" "b", Op.rmOp "a", Op.rmOp "zz"]) = Except.ok (some "v") :=
  set_get_persists_until_overwrite initState "k" "v"
    [Op.setOp "a" "b", Op.rmOp "a", Op.rmOp "zz"]
    (by decide) (by decide) (by decide) (by decide)

/-- Claim C2 (amended): for the `src/engines/kvs.rs` engine — whose
`remove` appends a tombstone before dropping the index entry — every
sequence of operations from a fresh open keeps the in-memory index
exactly equal to the replay of the log from offset 0, and an engine
reopened from the resulting log without a snapshot answers every `get`
exactly as the never-closed engine does.  (The claim as stated fails
for the `src/lib.rs` engine copy, whose `remove` appends nothing.) -/
theorem replay_equals_index_with_tombstones (ops : List Op) :
    KvStore.replay (run initState ops).log = (run initState ops).index ∧
    (∀ load : Except KvsError Index,
      KvStore.openStore false load (run initState ops).log
        = Except.ok ⟨(run initState ops).index, (run initState ops).log, 0⟩) ∧
    ∀ key, KvStore.get key ⟨(run initState ops).index, (run initState ops).log, 0⟩
      = KvStore.get key (run initState ops) := by
  have hWF : WF (run initState ops) := run_WF (show WF initState from rfl) ops
  refine ⟨hWF.symm, ?_, ?_⟩
  · intro load
    simp [KvStore.openStore]
    exact hWF.symm
  · intro key
    rfl

/-- Claim C2 counterexample: with the `src/lib.rs` variant of `remove`
(no tombstone), after `set "k" "v"` then `remove "k"` the replayed index
differs from the in-memory one, and the reopened engine resurrects the
key: `get "k"` answers `Some "v"` instead of `None`. -/
theorem replay_counterexample_lib_remove_no_tombstone :
    KvStore.replay (LibKvStore.remove "k" (KvStore.set "k" "v" initState).2).2.log ≠
      (LibKvStore.remove "k" (KvStore.set "k" "v" initState).2).2.index ∧
    KvStore.openStore false (Except.ok [])
        (LibKvStore.remove "k" (KvStore.set "k" "v" initState).2).2.log
      = Except.ok ⟨[("k", ⟨0, encLen (Command.Set "k" "v")⟩)],
          [Command.Set "k" "v"], 0⟩ ∧
    KvStore.get "k" ⟨[("k", ⟨0, encLen (Command.Set "k" "v")⟩)],
        [Command.Set "k" "v"], 0⟩ = Except.ok (some "v") ∧
    KvStore.get "k" (LibKvStore.remove "k" (KvStore.set "k" "v" initState).2).2
      = Except.ok none := by decide

/-- Claim C3: the claim (after every successful compaction, whether
triggered from `set` or from `remove`, the redundancy counter is 0)
matches the spec, but `KvStore::remove` omits the reset that `set`
performs: at `nearThresholdState` the remove succeeds and compaction
runs — the log shrinks to the single live record — yet
`redundance_bytes` remains above the 1 MiB threshold instead of 0. -/
theorem remove_triggered_compaction_keeps_redundance :
    (KvStore.remove "a" nearThresholdState).1 = Except.ok () ∧
    (KvStore.remove "a" nearThresholdState).2.log = [Command.Set "b" "y"] ∧
    REDUNDANCE_THRESHOLD ≤ (KvStore.remove "a" nearThresholdState).2.redundance_bytes ∧
    (KvStore.remove "a" nearThresholdState).2.redundance_bytes ≠ 0 := by decide

/-- Claim C4 (amended): when the index entry of a key decodes to a
record that is not `Set`, `get` returns the error `KeyNotFound` — not a
successful absence, and not a `Corruption` error, which the error enum
of `src/error.rs` does not even have. -/
theorem get_non_set_record_returns_key_not_found (s : KvState) (key k2 : String)
    (p : CommandPos) (hget : idxGet s.index key = some p)
    (hread : readSlice s.log p.pos p.len = some (Command.Rm k2)) :
    KvStore.get key s = Except.error KvsError.KeyNotFound := by
  simp [KvStore.get, hget, hread]

theorem get_non_set_record_returns_key_not_found_witness :
    idxGet rmRecordState.index "k" = some ⟨0, encLen (Command.Rm "k")⟩ ∧
    KvStore.get "k" rmRecordState = Except.error KvsError.KeyNotFound :=
  ⟨by decide, get_non_set_record_returns_key_not_found rmRecordState "k" "k"
    ⟨0, encLen (Command.Rm "k")⟩ (by decide) (by decide)⟩

/-- Claim C4 counterexample: at `rmRecordState` (the index maps `"k"`
to a byte range holding a `Rm` record) `get` returns `KeyNotFound`,
while the claim requires a `Corruption` error and explicitly not
`KeyNotFound`. -/
theorem get_rm_record_key_not_found_counterexample :
    KvStore.get "k" rmRecordState = Except.error KvsError.KeyNotFound := by decide

/-- Claim C5 (amended): `open` rebuilds the index by replay only when
the snapshot file does not exist; when the file exists and loading it
fails, `open` propagates the load error to its caller instead of
falling back to replay. -/
theorem open_rebuilds_only_when_snapshot_absent (load : Except KvsError Index)
    (log : List Command) (e : KvsError) :
    KvStore.openStore false load log = Except.ok ⟨KvStore.replay log, log, 0⟩ ∧
    KvStore.openStore true (Except.error e) log = Except.error e :=
  ⟨rfl, rfl⟩

/-- Claim C5 counterexample: a failing snapshot load surfaces out of
`open` (the claim says it never does). -/
theorem open_snapshot_load_error_surfaces :
    KvStore.openStore true (Except.error KvsError.DeserError) [Command.Set "k" "v"]
      = Except.error KvsError.DeserError := rfl

/-- Claim C6 (amended): when the tombstone append inside `remove` fails,
`remove` returns that error and the log is unchanged, but the in-memory
index has already been updated: the entry was removed before the append,
so the key is no longer mapped, leaving index and log inconsistent. -/
theorem remove_append_failure_drops_index_entry (s : KvState) (key : String)
    (p : CommandPos) (e : KvsError) (hnd : NodupKeys s.index)
    (hget : idxGet s.index key = some p) :
    (KvStore.removeF (some e) key s).1 = Except.error e ∧
    (KvStore.removeF (some e) key s).2.log = s.log ∧
    idxGet (KvStore.removeF (some e) key s).2.index key = none := by
  rw [removeF_some_eq hget]
  exact ⟨rfl, rfl, idxGet_remove_self hnd key⟩

theorem remove_append_failure_drops_index_entry_witness :
    (KvStore.removeF (some KvsError.DeserError) "a" oneKeyState).1
      = Except.error KvsError.DeserError ∧
    (KvStore.removeF (some KvsError.DeserError) "a" oneKeyState).2.log = oneKeyState.log ∧
    idxGet (KvStore.removeF (some KvsError.DeserError) "a" oneKeyState).2.index "a" = none :=
  remove_append_failure_drops_index_entry oneKeyState "a"
    ⟨0, encLen (Command.Set "a" "x")⟩ KvsError.DeserError (by decide) (by decide)

/-- Claim C6 counterexample: at `oneKeyState`, a failing append inside
`remove "a"` returns the error but the index has changed — the key is
gone — contradicting the claim that the index is left unchanged with
the key still mapped. -/
theorem remove_append_failure_counterexample :
    (KvStore.removeF (some KvsError.IOError) "a" oneKeyState).1
      = Except.error KvsError.IOError ∧
    (KvStore.removeF (some KvsError.IOError) "a" oneKeyState).2.index ≠ oneKeyState.index ∧
    idxGet (KvStore.removeF (some KvsError.IOError) "a" oneKeyState).2.index "a" = none := by
  decide

/-- Claim C7: `set` validates sizes before any I/O: an over-long key
fails with `InvalidKeySize` and (when the key is within bounds) an
over-long value fails with `InvalidValueSize`, in both cases with the
state — log, index and redundancy counter — completely untouched.
(When both are over-long the key check runs first, so `InvalidKeySize`
wins.) -/
theorem set_validates_sizes_before_io (k v : String) (s : KvState) :
    (256 < strBytes k → KvStore.set k v s = (Except.error KvsError.InvalidKeySize, s)) ∧
    (strBytes k ≤ 256 → 4096 < strBytes v →
      KvStore.set k v s = (Except.error KvsError.InvalidValueSize, s)) := by
  constructor
  · intro hk
    exact set_invalid_key (by omega) v s
  · intro hk hv
    have h2 : ¬ strBytes v ≤ 2 ^ 12 := by
      have h4 : (2 : Nat) ^ 12 = 4096 := by norm_num
      rw [h4]
      omega
    exact set_invalid_value hk h2 s

theorem set_validates_sizes_before_io_witness :
    KvStore.set longKey "v" initState = (Except.error KvsError.InvalidKeySize, initState) ∧
    KvStore.set "k" longValue initState
      = (Except.error KvsError.InvalidValueSize, initState) :=
  ⟨(set_validates_sizes_before_io longKey "v" initState).1
      (by rw [strBytes_longKey]; omega),
   (set_validates_sizes_before_io "k" longValue initState).2 (by decide)
      (by rw [strBytes_longValue]; omega)⟩

/-- Claim C8: compaction is idempotent — if one run of `log_compact`
succeeds, a second back-to-back run succeeds and returns byte-identical
log contents and an identical index (indeed the identical state). -/
theorem log_compact_idempotent (s s1 s2 : KvState)
    (h1 : KvStore.log_compact s = Except.ok s1)
    (h2 : KvStore.log_compact s1 = Except.ok s2) :
    s2.log = s1.log ∧ s2.index = s1.index ∧ s2 = s1 := by
  have h3 := log_compact_twice h1
  rw [h2] at h3
  have h4 := Except.ok.inj h3
  exact ⟨by rw [h4], by rw [h4], h4⟩

theorem log_compact_idempotent_witness :
    KvStore.log_compact twoKeyScrambled = Except.ok twoKeyCompacted ∧
    KvStore.log_compact twoKeyCompacted = Except.ok twoKeyCompacted ∧
    twoKeyCompacted.log = twoKeyCompacted.log ∧
    twoKeyCompacted.index = twoKeyCompacted.index :=
  ⟨by decide, by decide,
   (log_compact_idempotent twoKeyScrambled twoKeyCompacted twoKeyCompacted
      (by decide) (by decide)).1,
   (log_compact_idempotent twoKeyScrambled twoKeyCompacted twoKeyCompacted
      (by decide) (by decide)).2.1⟩

/-- Claim C9: the GET branch of the server's `get_response` writes
`Success\r\n<len>\r\n<value>\r\n` with `<len>` the value's UTF-8 byte
length when the key is live, and `Success\r\n-1\r\n` when it is
absent. -/
theorem get_response_success_format (s : KvState) (k : String) (hWF : WF s) :
    (∀ v, valueAt s k = some v →
      get_response_GET s k
        = Except.ok ("Success\r\n" ++ toString (strBytes v) ++ "\r\n" ++ v ++ "\r\n")) ∧
    (valueAt s k = none → get_response_GET s k = Except.ok "Success\r\n-1\r\n") := by
  have hget := get_eq_valueAt hWF k
  constructor
  · intro v hv
    simp [get_response_GET, hget, hv]
  · intro hv
    simp [get_response_GET, hget, hv]

theorem get_response_success_format_witness :
    get_response_GET (KvStore.set "k" "v" initState).2 "k"
      = Except.ok ("Success\r\n" ++ toString (strBytes "v") ++ "\r\n" ++ "v" ++ "\r\n") ∧
    "Success\r\n" ++ toString (strBytes "v") ++ "\r\n" ++ "v" ++ "\r\n"
      = "Success\r\n1\r\nv\r\n" ∧
    get_response_GET (KvStore.set "k" "v" initState).2 "zz"
      = Except.ok "Success\r\n-1\r\n" :=
  ⟨(get_response_success_format (KvStore.set "k" "v" initState).2 "k" (by decide)).1
      "v" (by decide),
   by decide,
   (get_response_success_format (KvStore.set "k" "v" initState).2 "zz" (by decide)).2
      (by decide)⟩

/-- Claim C10: the shared `read_line_from_stream` helper computes
`line.len() - 2` without a guard.  For any line shorter than 2 bytes the
`usize` subtraction underflows (wrapping to at least 2^64 - 2, far from
the mathematical value, so the CRLF strip silently does nothing in
release builds and panics in debug builds); for lines of at least 2
bytes (every properly CRLF-terminated line) it is exact and strips the
two trailing bytes. -/
theorem read_line_crlf_strip_underflow (line : List Nat) :
    (line.length < 2 →
      USIZE_MOD - 2 ≤ usizeSub line.length 2 ∧
      usizeSub line.length 2 ≠ line.length - 2 ∧
      read_line_from_stream line = line) ∧
    (2 ≤ line.length → line.length < USIZE_MOD →
      usizeSub line.length 2 = line.length - 2 ∧
      read_line_from_stream line = line.take (line.length - 2)) := by
  have hM : USIZE_MOD = 18446744073709551616 := by norm_num [USIZE_MOD]
  constructor
  · intro h
    have hsub : usizeSub line.length 2 = USIZE_MOD - 2 + line.length := by
      unfold usizeSub
      rw [hM] at *
      omega
    refine ⟨by omega, by omega, ?_⟩
    unfold read_line_from_stream
    rw [if_neg]
    rw [hsub, hM]
    omega
  · intro h hlt
    have hsub : usizeSub line.length 2 = line.length - 2 := by
      unfold usizeSub
      rw [hM] at *
      omega
    refine ⟨hsub, ?_⟩
    unfold read_line_from_stream
    rw [hsub, if_pos (by omega)]

theorem read_line_crlf_strip_underflow_witness :
    read_line_from_stream [] = [] ∧
    usizeSub (List.length ([] : List Nat)) 2 ≠ List.length ([] : List Nat) - 2 ∧
    read_line_from_stream [107, 13, 10] = [107] :=
  ⟨((read_line_crlf_strip_underflow []).1 (by decide)).2.2,
   ((read_line_crlf_strip_underflow []).1 (by decide)).2.1,
   ((read_line_crlf_strip_underflow [107, 13, 10]).2 (by decide)
      (by norm_num [USIZE_MOD])).2⟩
